import Mathlib

/-!
# AT&T 4425 terminal: raster generation (`att4425_state::screen_update`)

A shallow embedding of `screen_update` from `src/mame/drivers/att4425.cpp`
(lines 133-195) together with theorems about the rendered frame.

Conventions of the embedding

* `uint8_t` and `uint16_t` values are natural numbers; every assignment to such
  a variable is written with an explicit `% 256` or `% 65536`.  Expressions that
  C++ evaluates in `int` (the loop bound `ma + 160`, the indices `x + 1`,
  `ma + 1` and `ca | ra`, the row pointer before it is stored) are not reduced.
* Video memory and the character generator are functions from a buffer index to
  the stored value; `rd8` is the unchecked `operator[]` of a byte buffer.  The
  driver allocates 0x8000 bytes of video memory (`att4425_mem`) and 0x2000 bytes
  of character generator (`ROM_REGION(0x2000, "chargen", 0)`); the values of the
  functions at larger indices stand for whatever lies behind the buffers.
* Every index used on video memory is appended to `vreads`, every index used on
  the character generator to `greads`.
* The bitmap is observed through its writes: `rows` holds, in order, one entry
  per `bitmap.pix16(sy++)`, made of the bitmap row that was addressed and of the
  pixels stored through `p`, the first of them at column 0.
* The column loop `for (x = ma; x < ma + 160; x += 2)` takes fuel: `none` means
  that the fuel ran out before the loop condition became false.
-/

namespace Att4425

/-- The local variables of `screen_update` (lines 135-136, 148) and the
observable effects of the call. -/
structure Machine where
  gfx : Nat
  fg : Nat
  bg : Nat
  chr : Nat
  attr : Nat
  sy : Nat
  ma : Nat
  x : Nat
  ca : Nat
  prow : Nat
  line : List Nat
  rows : List (Nat × List Nat)
  vreads : List Nat
  greads : List Nat

/-- Unchecked read of a `uint8_t` buffer. -/
def rd8 (m : Nat → Nat) (i : Nat) : Nat := m i % 256

/-- Modelled from the spec: the macro `BIT(x, n)` of the emulator core, which is
not part of the driver file; it selects bit `n` of `x` ("each of the 8 pattern
bits ... maps to one output pixel"). -/
def BIT (x n : Nat) : Nat := (x >>> n) &&& 1

/-- Lines 152-153: `chr = m_p_videoram[x + 1]; attr = m_p_videoram[x];`. -/
def fetch (vram : Nat → Nat) (s : Machine) : Machine :=
  { s with
    chr := rd8 vram (s.x + 1)
    attr := rd8 vram s.x
    vreads := s.vreads ++ [s.x + 1, s.x] }

/-- Lines 154-178: glyph address, underline, dim, conceal, reverse video. -/
def decode (chargen : Nat → Nat) (ra : Nat) (s : Machine) : Machine :=
  -- ca = (chr << 4) & 0x7f0;
  let ca := ((s.chr <<< 4) &&& 0x7f0) % 65536
  -- if (attr & 0x01) ca += 0x0800;
  let ca := if s.attr &&& 0x01 ≠ 0 then (ca + 0x0800) % 65536 else ca
  -- if (attr & 0x10 && ra == 12) gfx = 0xff; else gfx = m_p_chargen[ca | ra] ^ 255;
  let ul : Bool := decide (s.attr &&& 0x10 ≠ 0 ∧ ra = 12)
  let gfx := if ul then 0xff else (rd8 chargen (ca ||| ra) ^^^ 255) % 256
  let greads := if ul then s.greads else s.greads ++ [ca ||| ra]
  -- if (attr & 0x02) fg = 1; else fg = 2;
  let fg := if s.attr &&& 0x02 ≠ 0 then 1 else 2
  -- if (attr & 0x04) fg = bg;
  let fg := if s.attr &&& 0x04 ≠ 0 then s.bg else fg
  -- if (attr & 0x20) gfx ^= 255;
  let gfx := if s.attr &&& 0x20 ≠ 0 then (gfx ^^^ 255) % 256 else gfx
  { s with ca := ca, gfx := gfx, fg := fg, greads := greads }

/-- Lines 181-189: the nine stores `*p++ = ...`. -/
def emit (s : Machine) : Machine :=
  { s with
    line := s.line ++
      [ if BIT s.gfx 7 ≠ 0 then s.fg else s.bg,
        if BIT s.gfx 6 ≠ 0 then s.fg else s.bg,
        if BIT s.gfx 5 ≠ 0 then s.fg else s.bg,
        if BIT s.gfx 4 ≠ 0 then s.fg else s.bg,
        if BIT s.gfx 3 ≠ 0 then s.fg else s.bg,
        if BIT s.gfx 2 ≠ 0 then s.fg else s.bg,
        if BIT s.gfx 1 ≠ 0 then s.fg else s.bg,
        if BIT s.gfx 0 ≠ 0 then s.fg else s.bg,
        s.bg ] }

/-- Body of the column loop, lines 151-190. -/
def cell (vram chargen : Nat → Nat) (ra : Nat) (s : Machine) : Machine :=
  emit (decode chargen ra (fetch vram s))

/-- The column loop of line 150, entered after `x = ma`: the test
`x < ma + 160` is made in `int`, the step `x += 2` wraps at 16 bits. -/
def colLoop (vram chargen : Nat → Nat) (ra : Nat) : Nat → Machine → Option Machine
  | 0, s => if s.x < s.ma + 160 then none else some s
  | fuel + 1, s =>
    if s.x < s.ma + 160 then
      let s1 := cell vram chargen ra s
      colLoop vram chargen ra fuel { s1 with x := (s1.x + 2) % 65536 }
    else some s

/-- Body of the scanline loop, lines 147-191. -/
def scanline (fuel : Nat) (vram chargen : Nat → Nat) (s : Machine) (ra : Nat) :
    Option Machine :=
  -- uint16_t *p = &bitmap.pix16(sy++);
  let s1 := { s with prow := s.sy, line := [], sy := (s.sy + 1) % 65536 }
  -- for (x = ma; ...
  (colLoop vram chargen ra fuel { s1 with x := s1.ma }).map
    fun s2 => { s2 with rows := s2.rows ++ [(s2.prow, s2.line)] }

/-- Lines 143-144 as an expression: the start offset of row `y`. -/
def rowStart (vram : Nat → Nat) (y : Nat) : Nat :=
  -- ma = 0x7e9c + 4 * (81 - 27 + y);
  let ma := (0x7e9c + 4 * (81 - 27 + y)) % 65536
  -- ma = (m_p_videoram[ma] << 8) + m_p_videoram[ma + 1] - 0x8000;
  ((((rd8 vram ma <<< 8) + rd8 vram (ma + 1) : Nat) : Int) - 0x8000).emod 65536 |>.toNat

/-- Lines 143-144 on the machine: the two table bytes are read and `ma` is
overwritten. -/
def resolve (vram : Nat → Nat) (y : Nat) (s : Machine) : Machine :=
  let ma := (0x7e9c + 4 * (81 - 27 + y)) % 65536
  { s with ma := rowStart vram y, vreads := s.vreads ++ [ma, ma + 1] }

/-- Body of the row loop, lines 142-193. -/
def row (fuel : Nat) (vram chargen : Nat → Nat) (s : Machine) (y : Nat) :
    Option Machine :=
  let s1 := resolve vram y s
  -- for (ra = 0; ra < 13; ra++)
  ((List.range 13).foldlM (scanline fuel vram chargen) s1).map
    -- ma += 160;
    fun s2 => { s2 with ma := (s2.ma + 160) % 65536 }

/-- The function `screen_update`.  `u` carries the values of the locals that are
declared without an initialiser; `sy`, `fg` and `bg` are set on entry. -/
def screen_update (fuel : Nat) (u : Machine) (vram chargen : Nat → Nat) :
    Option Machine :=
  let s0 : Machine :=
    { u with sy := 0, fg := 2, bg := 0, line := [], rows := [], vreads := [], greads := [] }
  -- for (y = 0; y < 27; y++)
  (List.range 27).foldlM (row fuel vram chargen) s0

/-- All locals zero, nothing observed yet. -/
def zeroMachine : Machine :=
  { gfx := 0, fg := 0, bg := 0, chr := 0, attr := 0, sy := 0, ma := 0, x := 0, ca := 0,
    prow := 0, line := [], rows := [], vreads := [], greads := [] }

/-- Pixels stored by the cell at video memory index `x` on scanline `ra` with
background value `bg`: what `cell` appends to `line`. -/
def cellPixels (vram chargen : Nat → Nat) (ra bg x : Nat) : List Nat :=
  (cell vram chargen ra { zeroMachine with bg := bg, x := x }).line

/-- Pixels of one scanline of a row that starts at offset `ma`. -/
def rowPixels (vram chargen : Nat → Nat) (ra bg ma : Nat) : List Nat :=
  (List.range 80).flatMap fun c => cellPixels vram chargen ra bg (ma + 2 * c)

/-- Video memory indices used by one scanline of a row that starts at `ma`. -/
def rowReads (ma : Nat) : List Nat :=
  (List.range 80).flatMap fun c => [ma + 2 * c + 1, ma + 2 * c]

/-- Pixels of the thirteen scanlines of row `y`, each with the bitmap row it
is stored in when the row starts at bitmap row `sy`. -/
def rowBlock (vram chargen : Nat → Nat) (sy y : Nat) : List (Nat × List Nat) :=
  (List.range 13).map fun ra => (sy + ra, rowPixels vram chargen ra 0 (rowStart vram y))

/-- Video memory indices used by row `y`. -/
def rowBlockReads (vram : Nat → Nat) (y : Nat) : List Nat :=
  [0x7e9c + 4 * (54 + y), 0x7e9c + 4 * (54 + y) + 1] ++
    (List.range 13).flatMap fun _ => rowReads (rowStart vram y)

/-- The rows a terminating call stores, in order. -/
def frameRows (vram chargen : Nat → Nat) : List (Nat × List Nat) :=
  (List.range 27).flatMap fun y => rowBlock vram chargen (13 * y) y

/-- The video memory indices a terminating call uses, in order. -/
def frameReads (vram : Nat → Nat) : List Nat :=
  (List.range 27).flatMap fun y => rowBlockReads vram y

/-! ### The rendering rule in the words of the specification -/

/-- Glyph lookup address: `((code << 4) & 0x7F0) | bank_offset | scanline`. -/
def specAddress (code attr ra : Nat) : Nat :=
  ((code <<< 4) &&& 0x7F0) ||| (if attr.testBit 0 then 0x0800 else 0) ||| ra

/-- Pattern of a cell: all ones on an underlined final scanline, else the
inverted table entry; inverted once more under reverse video. -/
def specPattern (chargen : Nat → Nat) (code attr ra : Nat) : Nat :=
  (if attr.testBit 4 ∧ ra = 12 then 0xFF
   else rd8 chargen (specAddress code attr ra) ^^^ 0xFF) ^^^
  (if attr.testBit 5 then 0xFF else 0)

/-- Foreground value: background when concealed, else low or high intensity. -/
def specFg (attr : Nat) : Nat :=
  if attr.testBit 2 then 0 else if attr.testBit 1 then 1 else 2

/-- Pixel `i` of a cell, pattern bits most significant first, then the
spacing column. -/
def specPixel (chargen : Nat → Nat) (code attr ra i : Nat) : Nat :=
  if i = 8 then 0
  else if (specPattern chargen code attr ra).testBit (7 - i) then specFg attr else 0

/-! ### Inputs used in the examples -/

/-- Video memory in which every byte is `0x80`: every row pointer is `0x8080`. -/
def vramAll80 : Nat → Nat := fun _ => 0x80

/-- Video memory filled with zero, the reset value of the RAM. -/
def vramZero : Nat → Nat := fun _ => 0

/-- Video memory whose pointer for row 0 is `0x7F60`, all other bytes `0x80`. -/
def vramHang : Nat → Nat :=
  fun i => if i = 0x7f74 then 0x7f else if i = 0x7f75 then 0x60 else 0x80

/-- Character generator filled with zero. -/
def chargenZero : Nat → Nat := fun _ => 0

/-- Character generator in which every entry is `0b10000000`. -/
def chargenAll80 : Nat → Nat := fun _ => 0x80

/-- Video memory in which every cell at an even index has attribute byte `attr`
and character code `code`. -/
def vramCell (attr code : Nat) : Nat → Nat :=
  fun i => if i % 2 = 0 then attr else code

/-! ## The cell -/

theorem cell_line (vram chargen : Nat → Nat) (ra : Nat) (s : Machine) :
    (cell vram chargen ra s).line = s.line ++ cellPixels vram chargen ra s.bg s.x := by
  simp [cell, emit, decode, fetch, cellPixels, zeroMachine]

theorem cell_vreads (vram chargen : Nat → Nat) (ra : Nat) (s : Machine) :
    (cell vram chargen ra s).vreads = s.vreads ++ [s.x + 1, s.x] := by
  simp [cell, emit, decode, fetch]

theorem cell_frame (vram chargen : Nat → Nat) (ra : Nat) (s : Machine) :
    (cell vram chargen ra s).bg = s.bg ∧ (cell vram chargen ra s).sy = s.sy ∧
    (cell vram chargen ra s).ma = s.ma ∧ (cell vram chargen ra s).x = s.x ∧
    (cell vram chargen ra s).rows = s.rows ∧ (cell vram chargen ra s).prow = s.prow := by
  simp [cell, emit, decode, fetch]

theorem cellPixels_length (vram chargen : Nat → Nat) (ra bg x : Nat) :
    (cellPixels vram chargen ra bg x).length = 9 := by
  simp [cellPixels, cell, emit, decode, fetch, zeroMachine]

/-! ## The column loop -/

theorem flatMap_range_succ_left {β : Type} (f : Nat → List β) (n : Nat) :
    (List.range (n + 1)).flatMap f = f 0 ++ (List.range n).flatMap fun c => f (c + 1) := by
  rw [List.range_succ_eq_map, List.flatMap_cons, List.flatMap_map]

/-- With `n` iterations left and no wrap of `x` ahead, the column loop stops
after exactly `n` cells. -/
theorem colLoop_run (vram chargen : Nat → Nat) (ra : Nat) :
    ∀ (n fuel : Nat) (s : Machine), n ≤ fuel → s.x + 2 * n = s.ma + 160 →
      s.ma + 160 < 65536 →
      ∃ t, colLoop vram chargen ra fuel s = some t ∧
        t.line = s.line ++
          (List.range n).flatMap (fun c => cellPixels vram chargen ra s.bg (s.x + 2 * c)) ∧
        t.vreads = s.vreads ++
          (List.range n).flatMap (fun c => [s.x + 2 * c + 1, s.x + 2 * c]) ∧
        t.bg = s.bg ∧ t.sy = s.sy ∧ t.ma = s.ma ∧ t.rows = s.rows ∧ t.prow = s.prow := by
  intro n
  induction n with
  | zero =>
    intro fuel s _ hx _
    have hnot : ¬ s.x < s.ma + 160 := by omega
    refine ⟨s, ?_, by simp, by simp, rfl, rfl, rfl, rfl, rfl⟩
    cases fuel <;> simp [colLoop, hnot]
  | succ n ih =>
    intro fuel s hf hx hma
    obtain ⟨fuel, rfl⟩ : ∃ k, fuel = k + 1 := ⟨fuel - 1, by omega⟩
    have hlt : s.x < s.ma + 160 := by omega
    obtain ⟨hbg, hsy, hm, hxx, hrows, hprow⟩ := cell_frame vram chargen ra s
    have hwrap : (s.x + 2) % 65536 = s.x + 2 := Nat.mod_eq_of_lt (by omega)
    obtain ⟨t, ht, hline, hreads, h1, h2, h3, h4, h5⟩ :=
      ih fuel { cell vram chargen ra s with x := ((cell vram chargen ra s).x + 2) % 65536 }
        (by omega) (by simp only [hxx, hwrap, hm]; omega) (by simp only [hm]; exact hma)
    refine ⟨t, ?_, ?_, ?_, ?_, ?_, ?_, ?_, ?_⟩
    · simp only [colLoop, hlt, if_true]; exact ht
    · rw [hline, flatMap_range_succ_left]
      simp only [cell_line, hbg, hxx, hwrap, List.append_assoc, Nat.mul_zero, Nat.add_zero]
      congr 2
      apply congrArg
      funext c
      congr 1
      omega
    · rw [hreads, flatMap_range_succ_left]
      simp only [cell_vreads, hxx, hwrap, List.append_assoc, Nat.mul_zero, Nat.add_zero]
      congr 2
      apply congrArg
      funext c
      have : s.x + 2 + 2 * c = s.x + 2 * (c + 1) := by omega
      rw [this]
    · rw [h1]; exact hbg
    · rw [h2]; exact hsy
    · rw [h3]; exact hm
    · rw [h4]; exact hrows
    · rw [h5]; exact hprow

/-- When `ma + 160` does not fit in 16 bits the loop condition is true for
every value `x` can take: the loop never ends, whatever the fuel. -/
theorem colLoop_diverges (vram chargen : Nat → Nat) (ra : Nat) :
    ∀ (fuel : Nat) (s : Machine), 65536 ≤ s.ma + 160 → s.x < 65536 →
      colLoop vram chargen ra fuel s = none := by
  intro fuel
  induction fuel with
  | zero =>
    intro s hma hx
    have hlt : s.x < s.ma + 160 := by omega
    simp [colLoop, hlt]
  | succ fuel ih =>
    intro s hma hx
    have hlt : s.x < s.ma + 160 := by omega
    obtain ⟨_, _, hm, _, _, _⟩ := cell_frame vram chargen ra s
    simp only [colLoop, hlt, if_true]
    apply ih
    · simp only [hm]; exact hma
    · exact Nat.mod_lt _ (by decide)

/-! ## Scanlines, rows, frame -/

theorem map_range_succ_left {β : Type} (f : Nat → β) (n : Nat) :
    (List.range (n + 1)).map f = f 0 :: (List.range n).map fun c => f (c + 1) := by
  rw [List.range_succ_eq_map, List.map_cons, List.map_map]
  rfl

theorem scanline_run (fuel : Nat) (vram chargen : Nat → Nat) (ra : Nat) (s : Machine)
    (hf : 80 ≤ fuel) (hma : s.ma + 160 < 65536) (hsy : s.sy + 1 < 65536) :
    ∃ t, scanline fuel vram chargen s ra = some t ∧
      t.rows = s.rows ++ [(s.sy, rowPixels vram chargen ra s.bg s.ma)] ∧
      t.vreads = s.vreads ++ rowReads s.ma ∧
      t.bg = s.bg ∧ t.sy = s.sy + 1 ∧ t.ma = s.ma := by
  obtain ⟨s1, hs1⟩ : ∃ s1 : Machine, s1 =
      { s with prow := s.sy, line := [], sy := (s.sy + 1) % 65536, x := s.ma } := ⟨_, rfl⟩
  have ex : s1.x = s.ma := by rw [hs1]
  have em : s1.ma = s.ma := by rw [hs1]
  have el : s1.line = [] := by rw [hs1]
  have ev : s1.vreads = s.vreads := by rw [hs1]
  have eb : s1.bg = s.bg := by rw [hs1]
  have es : s1.sy = s.sy + 1 := by rw [hs1]; exact Nat.mod_eq_of_lt hsy
  have er : s1.rows = s.rows := by rw [hs1]
  have ep : s1.prow = s.sy := by rw [hs1]
  have hrun : scanline fuel vram chargen s ra =
      (colLoop vram chargen ra fuel s1).map
        fun s2 => { s2 with rows := s2.rows ++ [(s2.prow, s2.line)] } := by
    rw [hs1]; rfl
  obtain ⟨t, ht, hline, hreads, h1, h2, h3, h4, h5⟩ :=
    colLoop_run vram chargen ra 80 fuel s1 hf (by rw [ex, em]) (by rw [em]; exact hma)
  rw [ex, el, eb] at hline
  rw [ex, ev] at hreads
  refine ⟨{ t with rows := t.rows ++ [(t.prow, t.line)] }, ?_, ?_, ?_, ?_, ?_, ?_⟩
  · rw [hrun, ht]; rfl
  · show t.rows ++ [(t.prow, t.line)] = _
    rw [h4, h5, hline, er, ep, List.nil_append, rowPixels]
  · show t.vreads = _
    rw [hreads, rowReads]
  · show t.bg = _
    rw [h1, eb]
  · show t.sy = _
    rw [h2, es]
  · show t.ma = _
    rw [h3, em]

theorem scanlines_run (fuel : Nat) (vram chargen : Nat → Nat) (hf : 80 ≤ fuel) :
    ∀ (n i : Nat) (s : Machine), s.ma + 160 < 65536 → s.sy + n < 65536 →
      ∃ t, (List.range' i n).foldlM (scanline fuel vram chargen) s = some t ∧
        t.rows = s.rows ++
          (List.range n).map (fun k => (s.sy + k, rowPixels vram chargen (i + k) s.bg s.ma)) ∧
        t.vreads = s.vreads ++ (List.range n).flatMap (fun _ => rowReads s.ma) ∧
        t.bg = s.bg ∧ t.sy = s.sy + n ∧ t.ma = s.ma := by
  intro n
  induction n with
  | zero =>
    intro i s _ _
    exact ⟨s, by simp, by simp, by simp, rfl, rfl, rfl⟩
  | succ n ih =>
    intro i s hma hsy
    obtain ⟨t1, ht1, hr1, hv1, hb1, hs1, hm1⟩ :=
      scanline_run fuel vram chargen i s hf hma (by omega)
    obtain ⟨t, ht, hr, hv, hb, hs, hm⟩ :=
      ih (i + 1) t1 (by rw [hm1]; exact hma) (by rw [hs1]; omega)
    refine ⟨t, ?_, ?_, ?_, ?_, ?_, ?_⟩
    · rw [List.range'_succ, List.foldlM_cons, ht1]
      exact ht
    · rw [hr, hr1, hs1, hb1, hm1, map_range_succ_left, List.append_assoc]
      congr 1
      simp only [List.singleton_append, Nat.add_zero, List.cons.injEq, true_and]
      apply List.map_congr_left
      intro k _
      have e1 : s.sy + 1 + k = s.sy + (k + 1) := by omega
      have e2 : i + 1 + k = i + (k + 1) := by omega
      rw [e1, e2]
    · rw [hv, hv1, hm1, flatMap_range_succ_left, List.append_assoc]
    · rw [hb, hb1]
    · rw [hs, hs1]; omega
    · rw [hm, hm1]

theorem row_run (fuel : Nat) (vram chargen : Nat → Nat) (hf : 80 ≤ fuel) (y : Nat)
    (s : Machine) (hy : y < 27) (hbg : s.bg = 0)
    (hma : rowStart vram y + 160 < 65536) (hsy : s.sy + 13 < 65536) :
    ∃ t, row fuel vram chargen s y = some t ∧
      t.rows = s.rows ++ rowBlock vram chargen s.sy y ∧
      t.vreads = s.vreads ++ rowBlockReads vram y ∧
      t.bg = 0 ∧ t.sy = s.sy + 13 := by
  have htab : (0x7e9c + 4 * (81 - 27 + y)) % 65536 = 0x7e9c + 4 * (54 + y) := by omega
  obtain ⟨s1, hs1⟩ : ∃ s1 : Machine, s1 = resolve vram y s := ⟨_, rfl⟩
  have em : s1.ma = rowStart vram y := by rw [hs1]; rfl
  have ev : s1.vreads = s.vreads ++ [0x7e9c + 4 * (54 + y), 0x7e9c + 4 * (54 + y) + 1] := by
    rw [hs1]; show s.vreads ++ [_, _] = _; rw [htab]
  have eb : s1.bg = 0 := by rw [hs1]; exact hbg
  have es : s1.sy = s.sy := by rw [hs1]; rfl
  have er : s1.rows = s.rows := by rw [hs1]; rfl
  have hrun : row fuel vram chargen s y =
      ((List.range' 0 13).foldlM (scanline fuel vram chargen) s1).map
        fun s2 => { s2 with ma := (s2.ma + 160) % 65536 } := by
    rw [hs1, ← List.range_eq_range']; rfl
  obtain ⟨t, ht, hr, hv, hb, hs, _⟩ :=
    scanlines_run fuel vram chargen hf 13 0 s1 (by rw [em]; exact hma) (by rw [es]; exact hsy)
  rw [er, es, eb, em] at hr
  rw [ev, em] at hv
  refine ⟨{ t with ma := (t.ma + 160) % 65536 }, ?_, ?_, ?_, ?_, ?_⟩
  · rw [hrun, ht]; rfl
  · show t.rows = _
    rw [hr, rowBlock]
    simp only [Nat.zero_add]
  · show t.vreads = _
    rw [hv, rowBlockReads, List.append_assoc]
  · show t.bg = _
    rw [hb, eb]
  · show t.sy = _
    rw [hs, es]

theorem rows_run (fuel : Nat) (vram chargen : Nat → Nat) (hf : 80 ≤ fuel) :
    ∀ (n i : Nat) (s : Machine), i + n ≤ 27 → s.bg = 0 →
      (∀ y, i ≤ y → y < i + n → rowStart vram y + 160 < 65536) →
      s.sy + 13 * n < 65536 →
      ∃ t, (List.range' i n).foldlM (row fuel vram chargen) s = some t ∧
        t.rows = s.rows ++
          (List.range n).flatMap (fun j => rowBlock vram chargen (s.sy + 13 * j) (i + j)) ∧
        t.vreads = s.vreads ++ (List.range n).flatMap (fun j => rowBlockReads vram (i + j)) ∧
        t.bg = 0 ∧ t.sy = s.sy + 13 * n := by
  intro n
  induction n with
  | zero =>
    intro i s _ hbg _ _
    exact ⟨s, by simp, by simp, by simp, hbg, rfl⟩
  | succ n ih =>
    intro i s hin hbg hall hsy
    obtain ⟨t1, ht1, hr1, hv1, hb1, hs1⟩ :=
      row_run fuel vram chargen hf i s (by omega) hbg (hall i (by omega) (by omega)) (by omega)
    obtain ⟨t, ht, hr, hv, hb, hs⟩ :=
      ih (i + 1) t1 (by omega) hb1 (fun y h1 h2 => hall y (by omega) (by omega))
        (by rw [hs1]; omega)
    refine ⟨t, ?_, ?_, ?_, hb, ?_⟩
    · rw [List.range'_succ, List.foldlM_cons, ht1]
      exact ht
    · rw [hr, hr1, hs1, flatMap_range_succ_left, List.append_assoc]
      congr 2
      apply congrArg
      funext j
      have e1 : s.sy + 13 + 13 * j = s.sy + 13 * (j + 1) := by omega
      have e2 : i + 1 + j = i + (j + 1) := by omega
      rw [e1, e2]
    · rw [hv, hv1, flatMap_range_succ_left, List.append_assoc]
      congr 2
      apply congrArg
      funext j
      have e2 : i + 1 + j = i + (j + 1) := by omega
      rw [e2]
    · rw [hs, hs1]; omega

/-- Closed form of a call in which no row start offset makes `ma + 160`
overflow 16 bits. -/
theorem screen_update_run (fuel : Nat) (u : Machine) (vram chargen : Nat → Nat)
    (hf : 80 ≤ fuel) (h : ∀ y, y < 27 → rowStart vram y + 160 < 65536) :
    ∃ t, screen_update fuel u vram chargen = some t ∧
      t.rows = frameRows vram chargen ∧ t.vreads = frameReads vram := by
  obtain ⟨s0, hs0⟩ : ∃ s0 : Machine, s0 =
      { u with sy := 0, fg := 2, bg := 0, line := [], rows := [], vreads := [],
               greads := [] } := ⟨_, rfl⟩
  have eb : s0.bg = 0 := by rw [hs0]
  have es : s0.sy = 0 := by rw [hs0]
  have er : s0.rows = [] := by rw [hs0]
  have ev : s0.vreads = [] := by rw [hs0]
  have hrun : screen_update fuel u vram chargen =
      (List.range' 0 27).foldlM (row fuel vram chargen) s0 := by
    rw [hs0, ← List.range_eq_range']; rfl
  obtain ⟨t, ht, hr, hv, _, _⟩ :=
    rows_run fuel vram chargen hf 27 0 s0 (by omega) eb (fun y _ hy => h y (by omega))
      (by rw [es]; omega)
  rw [er, es, List.nil_append] at hr
  rw [ev, List.nil_append] at hv
  refine ⟨t, ?_, ?_, ?_⟩
  · rw [hrun]; exact ht
  · rw [hr, frameRows]
    apply congrArg
    funext j
    rw [Nat.zero_add, Nat.zero_add]
  · rw [hv, frameReads]
    apply congrArg
    funext j
    rw [Nat.zero_add]

/-! ## Indexing a frame -/

theorem length_flatMap_range {β : Type} (f : Nat → List β) (n : Nat)
    (hlen : ∀ a, (f a).length = n) :
    ∀ N, ((List.range N).flatMap f).length = n * N := by
  intro N
  induction N with
  | zero => simp
  | succ N ih =>
    rw [List.range_succ, List.flatMap_append, List.length_append, ih]
    simp only [List.flatMap_cons, List.flatMap_nil, List.append_nil, hlen]
    rw [Nat.mul_succ]

theorem getElem_flatMap_range {β : Type} (f : Nat → List β) (n : Nat)
    (hlen : ∀ a, (f a).length = n) :
    ∀ N j k, j < N → k < n → ((List.range N).flatMap f)[n * j + k]? = (f j)[k]? := by
  intro N
  induction N with
  | zero => intro j k hj; omega
  | succ N ih =>
    intro j k hj hk
    have hL := length_flatMap_range f n hlen N
    rw [List.range_succ, List.flatMap_append]
    by_cases hjN : j < N
    · have hmul : n * j + n ≤ n * N := by
        have := Nat.mul_le_mul_left n (Nat.succ_le_of_lt hjN)
        rwa [Nat.mul_succ] at this
      rw [List.getElem?_append_left (by rw [hL]; omega)]
      exact ih j k hjN hk
    · have hj' : j = N := by omega
      subst hj'
      rw [List.getElem?_append_right (by rw [hL]; omega), hL]
      simp only [List.flatMap_cons, List.flatMap_nil, List.append_nil]
      congr 1
      omega

theorem rowPixels_length (vram chargen : Nat → Nat) (ra bg ma : Nat) :
    (rowPixels vram chargen ra bg ma).length = 720 := by
  rw [rowPixels, length_flatMap_range _ 9 (fun _ => cellPixels_length _ _ _ _ _)]

theorem rowPixels_get (vram chargen : Nat → Nat) (ra bg ma c i : Nat) (hc : c < 80)
    (hi : i < 9) :
    (rowPixels vram chargen ra bg ma)[9 * c + i]? =
      (cellPixels vram chargen ra bg (ma + 2 * c))[i]? := by
  rw [rowPixels, getElem_flatMap_range _ 9 (fun _ => cellPixels_length _ _ _ _ _) 80 c i hc hi]

theorem rowBlock_length (vram chargen : Nat → Nat) (sy y : Nat) :
    (rowBlock vram chargen sy y).length = 13 := by
  simp [rowBlock]

theorem frameRows_length (vram chargen : Nat → Nat) :
    (frameRows vram chargen).length = 351 := by
  rw [frameRows, length_flatMap_range _ 13 (fun _ => rowBlock_length _ _ _ _)]

theorem frameRows_get (vram chargen : Nat → Nat) (y ra : Nat) (hy : y < 27) (hra : ra < 13) :
    (frameRows vram chargen)[13 * y + ra]? =
      some (13 * y + ra, rowPixels vram chargen ra 0 (rowStart vram y)) := by
  rw [frameRows, getElem_flatMap_range _ 13 (fun _ => rowBlock_length _ _ _ _) 27 y ra hy hra,
    rowBlock, List.getElem?_map, List.getElem?_range hra]
  rfl

/-! ## Bytes and bits -/

theorem rd8_lt (m : Nat → Nat) (i : Nat) : rd8 m i < 256 :=
  Nat.mod_lt _ (by decide)

theorem BIT_ne_zero (x n : Nat) : BIT x n ≠ 0 ↔ x.testBit n = true := by
  simp [BIT, Nat.testBit, Nat.and_comm]

set_option maxRecDepth 100000 in
theorem byte_flags : ∀ a, a < 256 →
    (decide (a &&& 0x01 ≠ 0) = a.testBit 0 ∧ decide (a &&& 0x02 ≠ 0) = a.testBit 1 ∧
     decide (a &&& 0x04 ≠ 0) = a.testBit 2 ∧ decide (a &&& 0x10 ≠ 0) = a.testBit 4 ∧
     decide (a &&& 0x20 ≠ 0) = a.testBit 5) := by
  decide

set_option maxRecDepth 100000 in
theorem byte_glyph_base : ∀ c, c < 256 →
    (((c <<< 4) &&& 0x7f0) % 65536 = (c <<< 4) &&& 0x7f0 ∧
     (((c <<< 4) &&& 0x7f0) % 65536 + 0x0800) % 65536 = ((c <<< 4) &&& 0x7f0) ||| 0x0800) := by
  decide

set_option maxRecDepth 100000 in
theorem byte_invert : ∀ g, g < 256 →
    ((g ^^^ 255) % 256 = g ^^^ 255 ∧ ((g ^^^ 255) ^^^ 255) % 256 = (g ^^^ 255) ^^^ 255 ∧
     (g ^^^ 255) ^^^ 255 = g) := by
  decide

/-- The registers a cell leaves behind, in terms of the two bytes it read. -/
theorem cell_regs (vram chargen : Nat → Nat) (ra : Nat) (s : Machine) :
    (cell vram chargen ra s).gfx =
      (if rd8 vram s.x &&& 0x20 ≠ 0 then
        ((if rd8 vram s.x &&& 0x10 ≠ 0 ∧ ra = 12 then 0xff
          else (rd8 chargen ((if rd8 vram s.x &&& 0x01 ≠ 0
                  then (((rd8 vram (s.x + 1) <<< 4) &&& 0x7f0) % 65536 + 0x0800) % 65536
                  else ((rd8 vram (s.x + 1) <<< 4) &&& 0x7f0) % 65536) ||| ra) ^^^ 255) % 256)
          ^^^ 255) % 256
       else
        (if rd8 vram s.x &&& 0x10 ≠ 0 ∧ ra = 12 then 0xff
          else (rd8 chargen ((if rd8 vram s.x &&& 0x01 ≠ 0
                  then (((rd8 vram (s.x + 1) <<< 4) &&& 0x7f0) % 65536 + 0x0800) % 65536
                  else ((rd8 vram (s.x + 1) <<< 4) &&& 0x7f0) % 65536) ||| ra) ^^^ 255) % 256)) ∧
    (cell vram chargen ra s).fg =
      (if rd8 vram s.x &&& 0x04 ≠ 0 then s.bg
       else if rd8 vram s.x &&& 0x02 ≠ 0 then 1 else 2) := by
  constructor
  · simp only [cell, emit, decode, fetch]
    split_ifs <;> simp_all
  · simp only [cell, emit, decode, fetch]

/-- The nine stores of a cell, in terms of the registers it leaves behind. -/
theorem cell_emit (vram chargen : Nat → Nat) (ra : Nat) (s : Machine) :
    (cell vram chargen ra s).line = s.line ++
      [ if (cell vram chargen ra s).gfx.testBit 7 then (cell vram chargen ra s).fg else s.bg,
        if (cell vram chargen ra s).gfx.testBit 6 then (cell vram chargen ra s).fg else s.bg,
        if (cell vram chargen ra s).gfx.testBit 5 then (cell vram chargen ra s).fg else s.bg,
        if (cell vram chargen ra s).gfx.testBit 4 then (cell vram chargen ra s).fg else s.bg,
        if (cell vram chargen ra s).gfx.testBit 3 then (cell vram chargen ra s).fg else s.bg,
        if (cell vram chargen ra s).gfx.testBit 2 then (cell vram chargen ra s).fg else s.bg,
        if (cell vram chargen ra s).gfx.testBit 1 then (cell vram chargen ra s).fg else s.bg,
        if (cell vram chargen ra s).gfx.testBit 0 then (cell vram chargen ra s).fg else s.bg,
        s.bg ] := by
  simp only [cell, emit, BIT_ne_zero]
  rfl

/-! ## The cell against the rendering rule -/

theorem flag_iff (a : Nat) (ha : a < 256) :
    (a &&& 0x01 ≠ 0 ↔ a.testBit 0 = true) ∧ (a &&& 0x02 ≠ 0 ↔ a.testBit 1 = true) ∧
    (a &&& 0x04 ≠ 0 ↔ a.testBit 2 = true) ∧ (a &&& 0x10 ≠ 0 ↔ a.testBit 4 = true) ∧
    (a &&& 0x20 ≠ 0 ↔ a.testBit 5 = true) := by
  obtain ⟨h0, h1, h2, h4, h5⟩ := byte_flags a ha
  refine ⟨?_, ?_, ?_, ?_, ?_⟩
  · rw [← h0]; exact decide_eq_true_iff.symm
  · rw [← h1]; exact decide_eq_true_iff.symm
  · rw [← h2]; exact decide_eq_true_iff.symm
  · rw [← h4]; exact decide_eq_true_iff.symm
  · rw [← h5]; exact decide_eq_true_iff.symm

/-- The pattern register after a cell is the pattern of the rendering rule. -/
theorem cell_gfx_spec (vram chargen : Nat → Nat) (ra : Nat) (s : Machine) :
    (cell vram chargen ra s).gfx =
      specPattern chargen (rd8 vram (s.x + 1)) (rd8 vram s.x) ra := by
  obtain ⟨h0, _, _, h4, h5⟩ := flag_iff (rd8 vram s.x) (rd8_lt _ _)
  obtain ⟨g1, g2⟩ := byte_glyph_base (rd8 vram (s.x + 1)) (rd8_lt _ _)
  have inv := fun i => byte_invert (rd8 chargen i) (rd8_lt _ _)
  rw [(cell_regs vram chargen ra s).1, specPattern, specAddress, g2, g1]
  simp only [h0, h4, h5]
  by_cases b5 : (rd8 vram s.x).testBit 5 = true <;>
    by_cases b4 : ((rd8 vram s.x).testBit 4 = true ∧ ra = 12) <;>
    by_cases b0 : (rd8 vram s.x).testBit 0 = true <;>
    simp only [b5, b4, b0, if_true, if_false, (inv _).1, (inv _).2.1, Nat.xor_zero,
      Nat.or_zero, Bool.false_eq_true, and_self] <;> rfl

/-- The foreground register after a cell. -/
theorem cell_fg_spec (vram chargen : Nat → Nat) (ra : Nat) (s : Machine) :
    (cell vram chargen ra s).fg =
      (if (rd8 vram s.x).testBit 2 then s.bg
       else if (rd8 vram s.x).testBit 1 then 1 else 2) := by
  obtain ⟨_, h1, h2, _, _⟩ := flag_iff (rd8 vram s.x) (rd8_lt _ _)
  rw [(cell_regs vram chargen ra s).2]
  simp only [h1, h2]

theorem specPattern_lt (chargen : Nat → Nat) (code attr ra : Nat) :
    specPattern chargen code attr ra < 256 := by
  have h8 : (256 : Nat) = 2 ^ 8 := by decide
  rw [specPattern, h8]
  apply Nat.xor_lt_two_pow
  · split_ifs
    · decide
    · exact Nat.xor_lt_two_pow (by rw [← h8]; exact rd8_lt _ _) (by decide)
  · split_ifs <;> decide

theorem specPattern_congr (chargen : Nat → Nat) (code a b ra : Nat)
    (h0 : b.testBit 0 = a.testBit 0) (h4 : b.testBit 4 = a.testBit 4)
    (h5 : b.testBit 5 = a.testBit 5) :
    specPattern chargen code b ra = specPattern chargen code a ra := by
  rw [specPattern, specPattern, specAddress, specAddress, h0, h4, h5]

set_option maxRecDepth 100000 in
theorem byte_mask37 : ∀ a, a < 256 →
    ((a &&& 0x37).testBit 0 = a.testBit 0 ∧ (a &&& 0x37).testBit 1 = a.testBit 1 ∧
     (a &&& 0x37).testBit 2 = a.testBit 2 ∧ (a &&& 0x37).testBit 4 = a.testBit 4 ∧
     (a &&& 0x37).testBit 5 = a.testBit 5) := by
  decide

set_option maxRecDepth 100000 in
theorem byte_xor20 : ∀ a, a < 256 →
    ((a ^^^ 0x20).testBit 0 = a.testBit 0 ∧ (a ^^^ 0x20).testBit 1 = a.testBit 1 ∧
     (a ^^^ 0x20).testBit 2 = a.testBit 2 ∧ (a ^^^ 0x20).testBit 4 = a.testBit 4 ∧
     (a ^^^ 0x20).testBit 5 = !a.testBit 5 ∧ (a ^^^ 0x20) ^^^ 0x20 = a) := by
  decide

set_option maxRecDepth 100000 in
theorem byte_complement : ∀ g, g < 256 → ∀ i, i < 8 →
    (g ^^^ 0xFF).testBit i = !g.testBit i := by
  decide

/-! ## Attribute rules of a single cell -/

/-- C2 (conceal precedence): when bit 2 (0x04) of the attribute byte of a cell
is set, the nine pixels the cell stores all equal the background value, for every
value of the other attribute bits, every character code, every scanline and every
character generator; with the background value 0 of a frame they are nine
zeros. -/
theorem conceal_all_background (vram chargen : Nat → Nat) (ra : Nat) (s : Machine)
    (hc : rd8 vram s.x &&& 0x04 ≠ 0) :
    (cell vram chargen ra s).line = s.line ++ List.replicate 9 s.bg ∧
    cellPixels vram chargen ra 0 s.x = List.replicate 9 0 := by
  have key : ∀ t : Machine, rd8 vram t.x &&& 0x04 ≠ 0 →
      (cell vram chargen ra t).line = t.line ++ List.replicate 9 t.bg := by
    intro t ht
    rw [cell_emit, (cell_regs vram chargen ra t).2, if_pos ht]
    simp only [ite_self]
    rfl
  exact ⟨key s hc, key { zeroMachine with bg := 0, x := s.x } hc⟩

theorem conceal_all_background_witness :
    rd8 (vramCell 0x37 0x41) 0 &&& 0x04 ≠ 0 ∧
    ((cell (vramCell 0x37 0x41) chargenAll80 12 zeroMachine).line =
        zeroMachine.line ++ List.replicate 9 zeroMachine.bg ∧
      cellPixels (vramCell 0x37 0x41) chargenAll80 12 0 zeroMachine.x = List.replicate 9 0) :=
  ⟨by decide, conceal_all_background (vramCell 0x37 0x41) chargenAll80 12 zeroMachine (by decide)⟩

/-- C9 as stated fails: for a cell with attribute byte 0x20 whose character
generator entry is 0b10000000, the first pixel is the foreground value 2 and the
seven glyph pixels after it are the background value 0, the opposite of the
polarity the scenario expects. -/
theorem reverse_polarity_counterexample :
    rd8 (vramCell 0x20 0x41) 0 = 0x20 ∧
    rd8 chargenAll80 (((rd8 (vramCell 0x20 0x41) 1 <<< 4) &&& 0x7f0) ||| 5) = 0x80 ∧
    cellPixels (vramCell 0x20 0x41) chargenAll80 5 0 0 = [2, 0, 0, 0, 0, 0, 0, 0, 0] ∧
    cellPixels (vramCell 0x20 0x41) chargenAll80 5 0 0 ≠ [0, 2, 2, 2, 2, 2, 2, 2, 0] := by
  decide

/-- C9 (amended): for a cell with attribute byte 0x20 whose character generator
entry for its character code, font bank 0 and scanline is 0b10000000, the nine
pixels stored are: first pixel foreground (2), the remaining seven glyph pixels
background, the ninth spacing pixel background; the background value of a frame
is 0. -/
theorem reverse_polarity (vram chargen : Nat → Nat) (ra : Nat) (s : Machine)
    (ha : rd8 vram s.x = 0x20)
    (hg : rd8 chargen (((rd8 vram (s.x + 1) <<< 4) &&& 0x7f0) ||| ra) = 0x80) :
    (cell vram chargen ra s).line =
      s.line ++ [2, s.bg, s.bg, s.bg, s.bg, s.bg, s.bg, s.bg, s.bg] ∧
    cellPixels vram chargen ra 0 s.x = [2, 0, 0, 0, 0, 0, 0, 0, 0] := by
  have key : ∀ t : Machine, t.x = s.x →
      (cell vram chargen ra t).line =
        t.line ++ [2, t.bg, t.bg, t.bg, t.bg, t.bg, t.bg, t.bg, t.bg] := by
    intro t ht
    have hp : specPattern chargen (rd8 vram (t.x + 1)) (rd8 vram t.x) ra = 0x80 := by
      have b4 : Nat.testBit 0x20 4 = false := by decide
      have b5 : Nat.testBit 0x20 5 = true := by decide
      have b0 : Nat.testBit 0x20 0 = false := by decide
      rw [ht, ha, specPattern, specAddress, b4, b5, b0]
      simp only [Bool.false_eq_true, false_and, if_false, if_true, Nat.or_zero, hg]
      decide
    have hf : (cell vram chargen ra t).fg = 2 := by
      have b2 : Nat.testBit 0x20 2 = false := by decide
      have b1 : Nat.testBit 0x20 1 = false := by decide
      rw [cell_fg_spec, ht, ha, b2, b1]
      rfl
    rw [cell_emit, cell_gfx_spec, hp, hf]
    rfl
  exact ⟨key s rfl, key { zeroMachine with bg := 0, x := s.x } rfl⟩

theorem reverse_polarity_witness :
    (rd8 (vramCell 0x20 0x41) zeroMachine.x = 0x20 ∧
      rd8 chargenAll80
        (((rd8 (vramCell 0x20 0x41) (zeroMachine.x + 1) <<< 4) &&& 0x7f0) ||| 5) = 0x80) ∧
    ((cell (vramCell 0x20 0x41) chargenAll80 5 zeroMachine).line =
        zeroMachine.line ++ [2, zeroMachine.bg, zeroMachine.bg, zeroMachine.bg, zeroMachine.bg,
          zeroMachine.bg, zeroMachine.bg, zeroMachine.bg, zeroMachine.bg] ∧
      cellPixels (vramCell 0x20 0x41) chargenAll80 5 0 zeroMachine.x =
        [2, 0, 0, 0, 0, 0, 0, 0, 0]) :=
  ⟨⟨by decide, by decide⟩,
    reverse_polarity (vramCell 0x20 0x41) chargenAll80 5 zeroMachine (by decide) (by decide)⟩

/-- C4 as stated fails: with underline and reverse video both set (attribute
byte 0x30) the pattern expanded on the final scanline is 0x00, not 0xFF, and the
eight glyph pixels take the background value 0 while the foreground value of the
cell is 2. -/
theorem underline_counterexample :
    rd8 (vramCell 0x30 0x41) 0 &&& 0x10 ≠ 0 ∧
    (cell (vramCell 0x30 0x41) chargenZero 12 zeroMachine).gfx = 0x00 ∧
    (cell (vramCell 0x30 0x41) chargenZero 12 zeroMachine).gfx ≠ 0xFF ∧
    (cell (vramCell 0x30 0x41) chargenZero 12 zeroMachine).fg = 2 ∧
    (cell (vramCell 0x30 0x41) chargenZero 12 zeroMachine).line =
      [0, 0, 0, 0, 0, 0, 0, 0, 0] := by
  decide

/-- C4 (amended): for every attribute byte with bit 4 (0x10) set, every
character code and every character generator, the pattern expanded on the final
scanline (ra = 12) is 0xFF when reverse video (bit 5) is clear, and then the
eight glyph pixels take the foreground value of the cell; it is 0x00 when
reverse video is set, and then all pixels take the background value. -/
theorem underline_final_scanline (vram chargen : Nat → Nat) (s : Machine)
    (hu : rd8 vram s.x &&& 0x10 ≠ 0) :
    (cell vram chargen 12 s).gfx = (if rd8 vram s.x &&& 0x20 ≠ 0 then 0x00 else 0xFF) ∧
    (cell vram chargen 12 s).line = s.line ++
      (if rd8 vram s.x &&& 0x20 ≠ 0 then List.replicate 9 s.bg
       else List.replicate 8 (cell vram chargen 12 s).fg ++ [s.bg]) := by
  have hul : rd8 vram s.x &&& 0x10 ≠ 0 ∧ 12 = 12 := ⟨hu, rfl⟩
  have hg : (cell vram chargen 12 s).gfx =
      (if rd8 vram s.x &&& 0x20 ≠ 0 then 0x00 else 0xFF) := by
    rw [(cell_regs vram chargen 12 s).1, if_pos hul]
    split_ifs <;> rfl
  refine ⟨hg, ?_⟩
  rw [cell_emit, hg]
  by_cases h5 : rd8 vram s.x &&& 0x20 ≠ 0
  · rw [if_pos h5, if_pos h5]
    rfl
  · rw [if_neg h5, if_neg h5]
    rfl

theorem underline_final_scanline_witness :
    rd8 (vramCell 0x10 0x41) zeroMachine.x &&& 0x10 ≠ 0 ∧
    ((cell (vramCell 0x10 0x41) chargenZero 12 zeroMachine).gfx =
        (if rd8 (vramCell 0x10 0x41) zeroMachine.x &&& 0x20 ≠ 0 then 0x00 else 0xFF) ∧
      (cell (vramCell 0x10 0x41) chargenZero 12 zeroMachine).line = zeroMachine.line ++
        (if rd8 (vramCell 0x10 0x41) zeroMachine.x &&& 0x20 ≠ 0
          then List.replicate 9 zeroMachine.bg
          else List.replicate 8 (cell (vramCell 0x10 0x41) chargenZero 12 zeroMachine).fg ++
            [zeroMachine.bg])) :=
  ⟨by decide, underline_final_scanline (vramCell 0x10 0x41) chargenZero zeroMachine (by decide)⟩

/-- C10 (reserved bits ignored, cells stateless): a cell whose attribute byte is
`a AND 0x37` stores the same nine pixels as a cell with attribute byte `a` and
the same character code, on every scanline and for every character generator;
the two cells may be rendered from different machine states (registers left by
whatever cells came before, different positions), only the background value
being the same. -/
theorem reserved_bits_ignored (v v' chargen : Nat → Nat) (ra : Nat) (s s' : Machine)
    (hattr : rd8 v' s'.x = rd8 v s.x &&& 0x37)
    (hcode : rd8 v' (s'.x + 1) = rd8 v (s.x + 1)) (hbg : s'.bg = s.bg) :
    ∃ px : List Nat, px.length = 9 ∧
      (cell v chargen ra s).line = s.line ++ px ∧
      (cell v' chargen ra s').line = s'.line ++ px := by
  obtain ⟨m0, m1, m2, m4, m5⟩ := byte_mask37 (rd8 v s.x) (rd8_lt _ _)
  have hg : (cell v' chargen ra s').gfx = (cell v chargen ra s).gfx := by
    rw [cell_gfx_spec, cell_gfx_spec, hattr, hcode]
    exact specPattern_congr chargen _ _ _ ra m0 m4 m5
  have hf : (cell v' chargen ra s').fg = (cell v chargen ra s).fg := by
    rw [cell_fg_spec, cell_fg_spec, hattr, hbg, m1, m2]
  refine ⟨_, ?_, cell_emit v chargen ra s, ?_⟩
  · rfl
  · rw [cell_emit v' chargen ra s', hg, hf, hbg]

theorem reserved_bits_ignored_witness :
    (rd8 (vramCell 0x12 0x41) (zeroMachine.x) = rd8 (vramCell 0xDA 0x41) (zeroMachine.x) &&& 0x37 ∧
      rd8 (vramCell 0x12 0x41) (zeroMachine.x + 1) =
        rd8 (vramCell 0xDA 0x41) (zeroMachine.x + 1) ∧
      zeroMachine.bg = zeroMachine.bg) ∧
    ∃ px : List Nat, px.length = 9 ∧
      (cell (vramCell 0xDA 0x41) chargenAll80 3 zeroMachine).line = zeroMachine.line ++ px ∧
      (cell (vramCell 0x12 0x41) chargenAll80 3 zeroMachine).line = zeroMachine.line ++ px :=
  ⟨⟨by decide, by decide, rfl⟩,
    reserved_bits_ignored (vramCell 0xDA 0x41) (vramCell 0x12 0x41) chargenAll80 3
      zeroMachine zeroMachine (by decide) (by decide) rfl⟩

/-- C3 (reverse video is an exact complement and an involution): let `v'` hold,
for the cell at `s.x`, the attribute byte of `v` with bit 5 toggled and the same
character code, and `w` the attribute byte of `v'` with bit 5 toggled again.
On every scanline and for every character generator the 8-bit pattern expanded
under `v'` is the bitwise complement of the pattern expanded under `v`, the
foreground value, the background value and the ninth pixel are the same, and
the nine pixels under `w` are those under `v`. -/
theorem reverse_video_complement (v v' w chargen : Nat → Nat) (ra : Nat) (s : Machine)
    (ha : rd8 v' s.x = rd8 v s.x ^^^ 0x20) (hc : rd8 v' (s.x + 1) = rd8 v (s.x + 1))
    (ha' : rd8 w s.x = rd8 v' s.x ^^^ 0x20) (hc' : rd8 w (s.x + 1) = rd8 v' (s.x + 1)) :
    (cell v' chargen ra s).gfx = (cell v chargen ra s).gfx ^^^ 0xFF ∧
    (cell v chargen ra s).gfx < 256 ∧ (cell v' chargen ra s).gfx < 256 ∧
    (∀ i, i < 8 →
      (cell v' chargen ra s).gfx.testBit i = !(cell v chargen ra s).gfx.testBit i) ∧
    (cell v' chargen ra s).fg = (cell v chargen ra s).fg ∧
    (cell v' chargen ra s).bg = (cell v chargen ra s).bg ∧
    (cell v' chargen ra s).line[s.line.length + 8]? = some s.bg ∧
    (cell v chargen ra s).line[s.line.length + 8]? = some s.bg ∧
    (cell w chargen ra s).line = (cell v chargen ra s).line := by
  obtain ⟨x0, x1, x2, x4, x5, xx⟩ := byte_xor20 (rd8 v s.x) (rd8_lt _ _)
  have hlt : (cell v chargen ra s).gfx < 256 := by
    rw [cell_gfx_spec]; exact specPattern_lt _ _ _ _
  have hlt' : (cell v' chargen ra s).gfx < 256 := by
    rw [cell_gfx_spec]; exact specPattern_lt _ _ _ _
  have hg : (cell v' chargen ra s).gfx = (cell v chargen ra s).gfx ^^^ 0xFF := by
    rw [cell_gfx_spec, cell_gfx_spec, ha, hc, specPattern, specPattern, specAddress,
      specAddress, x0, x4, x5]
    cases (rd8 v s.x).testBit 5
    · simp only [Bool.not_false, if_true, Bool.false_eq_true, if_false, Nat.xor_zero]
    · simp only [Bool.not_true, if_true, Bool.false_eq_true, if_false, Nat.xor_zero,
        Nat.xor_assoc, Nat.xor_self]
  have hf : (cell v' chargen ra s).fg = (cell v chargen ra s).fg := by
    rw [cell_fg_spec, cell_fg_spec, ha, x1, x2]
  have h9 : ∀ w : Nat → Nat, (cell w chargen ra s).line[s.line.length + 8]? = some s.bg := by
    intro w
    rw [cell_emit, List.getElem?_append_right (Nat.le_add_right _ _), Nat.add_sub_cancel_left]
    rfl
  have hback : rd8 w s.x = rd8 v s.x := by rw [ha', ha, xx]
  refine ⟨hg, hlt, hlt', ?_, hf, ?_, h9 v', h9 v, ?_⟩
  · intro i hi
    rw [hg]
    exact byte_complement _ hlt i hi
  · rw [(cell_frame v' chargen ra s).1, (cell_frame v chargen ra s).1]
  · have hg2 : (cell w chargen ra s).gfx = (cell v chargen ra s).gfx := by
      rw [cell_gfx_spec, cell_gfx_spec, hback, hc', hc]
    have hf2 : (cell w chargen ra s).fg = (cell v chargen ra s).fg := by
      rw [cell_fg_spec, cell_fg_spec, hback]
    rw [cell_emit w chargen ra s, cell_emit v chargen ra s, hg2, hf2]

theorem reverse_video_complement_witness :
    (rd8 (vramCell 0x32 0x41) zeroMachine.x = rd8 (vramCell 0x12 0x41) zeroMachine.x ^^^ 0x20 ∧
      rd8 (vramCell 0x32 0x41) (zeroMachine.x + 1) =
        rd8 (vramCell 0x12 0x41) (zeroMachine.x + 1) ∧
      rd8 (vramCell 0x12 0x41) zeroMachine.x = rd8 (vramCell 0x32 0x41) zeroMachine.x ^^^ 0x20 ∧
      rd8 (vramCell 0x12 0x41) (zeroMachine.x + 1) =
        rd8 (vramCell 0x32 0x41) (zeroMachine.x + 1)) ∧
    ((cell (vramCell 0x32 0x41) chargenAll80 12 zeroMachine).gfx =
        (cell (vramCell 0x12 0x41) chargenAll80 12 zeroMachine).gfx ^^^ 0xFF ∧
      (cell (vramCell 0x12 0x41) chargenAll80 12 zeroMachine).gfx < 256 ∧
      (cell (vramCell 0x32 0x41) chargenAll80 12 zeroMachine).gfx < 256 ∧
      (∀ i, i < 8 →
        (cell (vramCell 0x32 0x41) chargenAll80 12 zeroMachine).gfx.testBit i =
          !(cell (vramCell 0x12 0x41) chargenAll80 12 zeroMachine).gfx.testBit i) ∧
      (cell (vramCell 0x32 0x41) chargenAll80 12 zeroMachine).fg =
        (cell (vramCell 0x12 0x41) chargenAll80 12 zeroMachine).fg ∧
      (cell (vramCell 0x32 0x41) chargenAll80 12 zeroMachine).bg =
        (cell (vramCell 0x12 0x41) chargenAll80 12 zeroMachine).bg ∧
      (cell (vramCell 0x32 0x41) chargenAll80 12 zeroMachine).line[zeroMachine.line.length + 8]? =
        some zeroMachine.bg ∧
      (cell (vramCell 0x12 0x41) chargenAll80 12 zeroMachine).line[zeroMachine.line.length + 8]? =
        some zeroMachine.bg ∧
      (cell (vramCell 0x12 0x41) chargenAll80 12 zeroMachine).line =
        (cell (vramCell 0x12 0x41) chargenAll80 12 zeroMachine).line) :=
  ⟨⟨by decide, by decide, by decide, by decide⟩,
    reverse_video_complement (vramCell 0x12 0x41) (vramCell 0x32 0x41) (vramCell 0x12 0x41)
      chargenAll80 12 zeroMachine (by decide) (by decide) (by decide) (by decide)⟩

/-! ## Glyph address -/

theorem cell_ca (vram chargen : Nat → Nat) (ra : Nat) (s : Machine) :
    (cell vram chargen ra s).ca =
      (if rd8 vram s.x &&& 0x01 ≠ 0
        then (((rd8 vram (s.x + 1) <<< 4) &&& 0x7f0) % 65536 + 0x0800) % 65536
        else ((rd8 vram (s.x + 1) <<< 4) &&& 0x7f0) % 65536) := by
  simp only [cell, emit, decode, fetch]

theorem cell_greads (vram chargen : Nat → Nat) (ra : Nat) (s : Machine) :
    (cell vram chargen ra s).greads =
      (if rd8 vram s.x &&& 0x10 ≠ 0 ∧ ra = 12 then s.greads
       else s.greads ++ [(cell vram chargen ra s).ca ||| ra]) := by
  simp only [cell, emit, decode, fetch, decide_eq_true_eq]

set_option maxRecDepth 100000 in
theorem byte_address : ∀ c, c < 256 → ∀ ra, ra < 13 →
    ((((c <<< 4) &&& 0x7f0) ||| 0x0800 ||| ra) = (((c <<< 4) &&& 0x7f0) ||| 0 ||| ra) + 0x0800 ∧
     (((c <<< 4) &&& 0x7f0) ||| 0x0800 ||| ra) < 0x1000 ∧
     (((c <<< 4) &&& 0x7f0) ||| 0 ||| ra) < 0x1000 ∧
     (((c <<< 4) &&& 0x7f0) ||| 0x0800 ||| ra) % 16 = ra ∧
     (((c <<< 4) &&& 0x7f0) ||| 0 ||| ra) % 16 = ra ∧
     (((c <<< 4) &&& 0x7f0) ||| 0x0800 ||| ra) / 16 % 128 = c % 128 ∧
     (((c <<< 4) &&& 0x7f0) ||| 0 ||| ra) / 16 % 128 = c % 128) := by
  decide

set_option maxRecDepth 100000 in
theorem byte_set_bank : ∀ a, a < 256 → (a ||| 0x01) &&& 0x01 ≠ 0 := by
  decide

/-- C8 (glyph lookup address and font bank): for every scanline `ra < 13`, every
character code and every attribute byte, the character generator index of a cell
is `((code << 4) & 0x7F0) | (0x0800 if attribute bit 0 else 0) | ra`; it is the
only index the cell logs, and none is logged on an underlined final scanline;
it is below 0x1000, its low four bits are the scanline and its bits 4..10 the
low seven bits of the code; setting attribute bit 0 with everything else fixed
raises it by exactly 0x0800 and changes neither of the two fields. -/
theorem glyph_address (v chargen : Nat → Nat) (ra : Nat) (s : Machine) (hra : ra < 13) :
    (cell v chargen ra s).ca ||| ra =
      (((rd8 v (s.x + 1) <<< 4) &&& 0x7F0) |||
        (if rd8 v s.x &&& 0x01 ≠ 0 then 0x0800 else 0) ||| ra) ∧
    (cell v chargen ra s).greads =
      (if rd8 v s.x &&& 0x10 ≠ 0 ∧ ra = 12 then s.greads
       else s.greads ++ [(cell v chargen ra s).ca ||| ra]) ∧
    (cell v chargen ra s).ca ||| ra < 0x1000 ∧
    ((cell v chargen ra s).ca ||| ra) % 16 = ra ∧
    ((cell v chargen ra s).ca ||| ra) / 16 % 128 = rd8 v (s.x + 1) % 128 ∧
    ∀ v' : Nat → Nat, rd8 v s.x &&& 0x01 = 0 → rd8 v' s.x = rd8 v s.x ||| 0x01 →
      rd8 v' (s.x + 1) = rd8 v (s.x + 1) →
      ((cell v' chargen ra s).ca ||| ra = ((cell v chargen ra s).ca ||| ra) + 0x0800 ∧
       ((cell v' chargen ra s).ca ||| ra) % 16 = ((cell v chargen ra s).ca ||| ra) % 16 ∧
       ((cell v' chargen ra s).ca ||| ra) / 16 % 128 =
         ((cell v chargen ra s).ca ||| ra) / 16 % 128) := by
  have key : ∀ w : Nat → Nat, (cell w chargen ra s).ca ||| ra =
      (((rd8 w (s.x + 1) <<< 4) &&& 0x7F0) |||
        (if rd8 w s.x &&& 0x01 ≠ 0 then 0x0800 else 0) ||| ra) := by
    intro w
    obtain ⟨g1, g2⟩ := byte_glyph_base (rd8 w (s.x + 1)) (rd8_lt _ _)
    rw [cell_ca]
    by_cases h : rd8 w s.x &&& 0x01 ≠ 0
    · rw [if_pos h, if_pos h, g2]
    · rw [if_neg h, if_neg h, g1, Nat.or_zero]
  obtain ⟨a1, a2, a3, a4, a5, a6, a7⟩ := byte_address (rd8 v (s.x + 1)) (rd8_lt _ _) ra hra
  have hbot : (cell v chargen ra s).ca ||| ra < 0x1000 ∧
      ((cell v chargen ra s).ca ||| ra) % 16 = ra ∧
      ((cell v chargen ra s).ca ||| ra) / 16 % 128 = rd8 v (s.x + 1) % 128 := by
    rw [key v]
    by_cases h : rd8 v s.x &&& 0x01 ≠ 0
    · rw [if_pos h]; exact ⟨a2, a4, a6⟩
    · rw [if_neg h]; exact ⟨a3, a5, a7⟩
  refine ⟨key v, cell_greads v chargen ra s, hbot.1, hbot.2.1, hbot.2.2, ?_⟩
  intro v' h0 ha hc
  have hv : (cell v chargen ra s).ca ||| ra =
      (((rd8 v (s.x + 1) <<< 4) &&& 0x7F0) ||| 0 ||| ra) := by
    rw [key v, if_neg (not_not.mpr h0)]
  have hv' : (cell v' chargen ra s).ca ||| ra =
      (((rd8 v (s.x + 1) <<< 4) &&& 0x7F0) ||| 0x0800 ||| ra) := by
    rw [key v', hc, if_pos (by rw [ha]; exact byte_set_bank _ (rd8_lt _ _))]
  rw [hv, hv']
  exact ⟨a1, by rw [a4, a5], by rw [a6, a7]⟩

theorem glyph_address_witness :
    (5 : Nat) < 13 ∧
    ((cell (vramCell 0x00 0xC1) chargenZero 5 zeroMachine).ca ||| 5 =
        (((rd8 (vramCell 0x00 0xC1) (zeroMachine.x + 1) <<< 4) &&& 0x7F0) |||
          (if rd8 (vramCell 0x00 0xC1) zeroMachine.x &&& 0x01 ≠ 0 then 0x0800 else 0) ||| 5) ∧
      (cell (vramCell 0x00 0xC1) chargenZero 5 zeroMachine).greads =
        (if rd8 (vramCell 0x00 0xC1) zeroMachine.x &&& 0x10 ≠ 0 ∧ 5 = 12 then zeroMachine.greads
         else zeroMachine.greads ++ [(cell (vramCell 0x00 0xC1) chargenZero 5 zeroMachine).ca ||| 5]) ∧
      (cell (vramCell 0x00 0xC1) chargenZero 5 zeroMachine).ca ||| 5 < 0x1000 ∧
      ((cell (vramCell 0x00 0xC1) chargenZero 5 zeroMachine).ca ||| 5) % 16 = 5 ∧
      ((cell (vramCell 0x00 0xC1) chargenZero 5 zeroMachine).ca ||| 5) / 16 % 128 =
        rd8 (vramCell 0x00 0xC1) (zeroMachine.x + 1) % 128 ∧
      ∀ v' : Nat → Nat, rd8 (vramCell 0x00 0xC1) zeroMachine.x &&& 0x01 = 0 →
        rd8 v' zeroMachine.x = rd8 (vramCell 0x00 0xC1) zeroMachine.x ||| 0x01 →
        rd8 v' (zeroMachine.x + 1) = rd8 (vramCell 0x00 0xC1) (zeroMachine.x + 1) →
        ((cell v' chargenZero 5 zeroMachine).ca ||| 5 =
            ((cell (vramCell 0x00 0xC1) chargenZero 5 zeroMachine).ca ||| 5) + 0x0800 ∧
         ((cell v' chargenZero 5 zeroMachine).ca ||| 5) % 16 =
            ((cell (vramCell 0x00 0xC1) chargenZero 5 zeroMachine).ca ||| 5) % 16 ∧
         ((cell v' chargenZero 5 zeroMachine).ca ||| 5) / 16 % 128 =
            ((cell (vramCell 0x00 0xC1) chargenZero 5 zeroMachine).ca ||| 5) / 16 % 128)) :=
  ⟨by decide, glyph_address (vramCell 0x00 0xC1) chargenZero 5 zeroMachine (by decide)⟩

/-! ## Row pointer -/

/-- C5 (row pointer resolution): for every row `y < 27` the start offset used
for the row is `((vram[B + 4*(54 + y)] * 256 + vram[B + 4*(54 + y) + 1]) - 0x8000)
mod 2^16` with `B = 0x7E9C`; exactly these two table bytes are read to resolve
it, and both indices are below 0x8000; the value `ma` has on entry to the row
(left by `ma += 160` of the row before) changes nothing in what the row does. -/
theorem row_pointer (vram chargen : Nat → Nat) (fuel y : Nat) (s : Machine) (hy : y < 27) :
    (resolve vram y s).ma =
      ((((rd8 vram (0x7E9C + 4 * (54 + y)) * 256 + rd8 vram (0x7E9C + 4 * (54 + y) + 1) : Nat)
          : Int) - 0x8000) % 65536).toNat ∧
    (resolve vram y s).vreads =
      s.vreads ++ [0x7E9C + 4 * (54 + y), 0x7E9C + 4 * (54 + y) + 1] ∧
    0x7E9C + 4 * (54 + y) + 1 < 0x8000 ∧
    (∀ m : Nat, resolve vram y { s with ma := m } = resolve vram y s) ∧
    (∀ m : Nat, row fuel vram chargen { s with ma := m } y = row fuel vram chargen s y) := by
  have htab : (0x7e9c + 4 * (81 - 27 + y)) % 65536 = 0x7E9C + 4 * (54 + y) := by omega
  refine ⟨?_, ?_, by omega, fun _ => rfl, fun _ => rfl⟩
  · show rowStart vram y = _
    rw [rowStart]
    simp only [htab, Nat.shiftLeft_eq]
    rfl
  · show s.vreads ++ [_, _] = _
    rw [htab]

theorem row_pointer_witness :
    (0 : Nat) < 27 ∧
    ((resolve vramHang 0 zeroMachine).ma =
        ((((rd8 vramHang (0x7E9C + 4 * (54 + 0)) * 256 +
            rd8 vramHang (0x7E9C + 4 * (54 + 0) + 1) : Nat) : Int) - 0x8000) % 65536).toNat ∧
      (resolve vramHang 0 zeroMachine).vreads =
        zeroMachine.vreads ++ [0x7E9C + 4 * (54 + 0), 0x7E9C + 4 * (54 + 0) + 1] ∧
      0x7E9C + 4 * (54 + 0) + 1 < 0x8000 ∧
      (∀ m : Nat, resolve vramHang 0 { zeroMachine with ma := m } = resolve vramHang 0 zeroMachine) ∧
      (∀ m : Nat, row 80 vramHang chargenZero { zeroMachine with ma := m } 0 =
        row 80 vramHang chargenZero zeroMachine 0)) :=
  ⟨by decide, row_pointer vramHang chargenZero 80 0 zeroMachine (by decide)⟩

/-! ## The frame -/

/-- Pixel `i` of a cell of a frame is the pixel of the rendering rule. -/
theorem cellPixels_get (vram chargen : Nat → Nat) (ra x i : Nat) (hi : i < 9) :
    (cellPixels vram chargen ra 0 x)[i]? =
      some (specPixel chargen (rd8 vram (x + 1)) (rd8 vram x) ra i) := by
  obtain ⟨s0, hs0⟩ : ∃ s0 : Machine, s0 = { zeroMachine with bg := 0, x := x } := ⟨_, rfl⟩
  have ex : s0.x = x := by rw [hs0]
  have eb : s0.bg = 0 := by rw [hs0]
  have el : s0.line = [] := by rw [hs0]; rfl
  have hcp : cellPixels vram chargen ra 0 x = (cell vram chargen ra s0).line := by
    rw [hs0]; rfl
  rw [hcp, cell_emit, cell_gfx_spec, cell_fg_spec, ex, eb, el, List.nil_append]
  interval_cases i <;> simp [specPixel, specFg]

/-- C6 fails on the code: when the pointer of row 0 is 0x7F60 the start offset
is 0xFF60, `ma + 160` is 65536 and the 16-bit `x` stays below it for ever; the
column loop of the first scanline does not end, for any amount of fuel, any
initial values of the locals and any character generator. -/
theorem screen_update_hangs (fuel : Nat) (u : Machine) (chargen : Nat → Nat) :
    screen_update fuel u vramHang chargen = none := by
  have hstart : rowStart vramHang 0 = 0xFF60 := by decide
  have hsl : ∀ s : Machine, s.ma = 0xFF60 → scanline fuel vramHang chargen s 0 = none := by
    intro s hs
    obtain ⟨s1, hs1⟩ : ∃ s1 : Machine, s1 =
        { s with prow := s.sy, line := [], sy := (s.sy + 1) % 65536, x := s.ma } := ⟨_, rfl⟩
    have ex : s1.x = s.ma := by rw [hs1]
    have em : s1.ma = s.ma := by rw [hs1]
    have hrun : scanline fuel vramHang chargen s 0 =
        (colLoop vramHang chargen 0 fuel s1).map
          fun s2 => { s2 with rows := s2.rows ++ [(s2.prow, s2.line)] } := by
      rw [hs1]; rfl
    rw [hrun, colLoop_diverges vramHang chargen 0 fuel s1 (by rw [em, hs])
      (by rw [ex, hs]; decide)]
    rfl
  have hrow : ∀ s : Machine, row fuel vramHang chargen s 0 = none := by
    intro s
    obtain ⟨s1, hs1⟩ : ∃ s1 : Machine, s1 = resolve vramHang 0 s := ⟨_, rfl⟩
    have em : s1.ma = 0xFF60 := by rw [hs1]; exact hstart
    have hrun : row fuel vramHang chargen s 0 =
        ((List.range' 0 13).foldlM (scanline fuel vramHang chargen) s1).map
          fun s2 => { s2 with ma := (s2.ma + 160) % 65536 } := by
      rw [hs1, ← List.range_eq_range']; rfl
    rw [hrun, List.range'_succ, List.foldlM_cons, hsl s1 em]
    rfl
  rw [screen_update, List.range_eq_range', List.range'_succ, List.foldlM_cons, hrow]
  rfl

theorem frameReads_lt (vram : Nat → Nat) (h : ∀ y, y < 27 → rowStart vram y + 159 < 0x8000) :
    ∀ i ∈ frameReads vram, i < 0x8000 := by
  intro i hi
  rw [frameReads, List.mem_flatMap] at hi
  obtain ⟨y, hy, hi⟩ := hi
  rw [List.mem_range] at hy
  have hma := h y hy
  rw [rowBlockReads, List.mem_append] at hi
  rcases hi with hi | hi
  · simp only [List.mem_cons, List.mem_singleton, List.not_mem_nil, or_false] at hi
    omega
  · rw [List.mem_flatMap] at hi
    obtain ⟨_, _, hi⟩ := hi
    rw [rowReads, List.mem_flatMap] at hi
    obtain ⟨c, hc, hi⟩ := hi
    rw [List.mem_range] at hc
    simp only [List.mem_cons, List.mem_singleton, List.not_mem_nil, or_false] at hi
    omega

/-- C7 as stated fails: with video memory filled with zero every row pointer is
0x0000, the start offset of every row is 0x8000, and the call reads index 0x8000
of the 0x8000-byte buffer; no wrap or mask is applied. -/
theorem vram_bounds_counterexample :
    ∃ t, screen_update 80 zeroMachine vramZero chargenZero = some t ∧
      0x8000 ∈ t.vreads ∧ ¬ ∀ i ∈ t.vreads, i < 0x8000 := by
  obtain ⟨t, ht, _, hv⟩ := screen_update_run 80 zeroMachine vramZero chargenZero
    (Nat.le_refl 80) (by decide)
  have hstart : rowStart vramZero 0 = 0x8000 := by decide
  have hmem : 0x8000 ∈ t.vreads := by
    rw [hv, frameReads, List.mem_flatMap]
    refine ⟨0, List.mem_range.mpr (by decide), ?_⟩
    rw [rowBlockReads, List.mem_append]
    right
    rw [List.mem_flatMap]
    refine ⟨0, List.mem_range.mpr (by decide), ?_⟩
    rw [rowReads, List.mem_flatMap, hstart]
    exact ⟨0, List.mem_range.mpr (by decide), by decide⟩
  exact ⟨t, ht, hmem, fun hall => absurd (hall _ hmem) (by decide)⟩

/-- C7 (amended): for every video memory in which each of the 27 resolved row
start offsets `s_y` satisfies `s_y + 159 < 0x8000` (each row pointer is between
0x8000 and 0xFF60), the call returns and every index it uses to read video
memory, the two pointer-table bytes of each row and the attribute and code
index of each cell, lies in `[0, 0x8000)`. -/
theorem vram_reads_in_bounds (fuel : Nat) (u : Machine) (vram chargen : Nat → Nat)
    (hf : 80 ≤ fuel) (h : ∀ y, y < 27 → rowStart vram y + 159 < 0x8000) :
    ∃ t, screen_update fuel u vram chargen = some t ∧ ∀ i ∈ t.vreads, i < 0x8000 := by
  obtain ⟨t, ht, _, hv⟩ := screen_update_run fuel u vram chargen hf
    (fun y hy => by have := h y hy; omega)
  refine ⟨t, ht, ?_⟩
  rw [hv]
  exact frameReads_lt vram h

theorem vram_reads_in_bounds_witness :
    (80 ≤ 80 ∧ ∀ y, y < 27 → rowStart vramAll80 y + 159 < 0x8000) ∧
    ∃ t, screen_update 80 zeroMachine vramAll80 chargenAll80 = some t ∧
      ∀ i ∈ t.vreads, i < 0x8000 :=
  ⟨⟨by decide, by decide⟩,
    vram_reads_in_bounds 80 zeroMachine vramAll80 chargenAll80 (by decide) (by decide)⟩

/-- C1 (the frame): for every video memory and character generator in which
each of the 27 resolved row start offsets `s_y` satisfies `s_y + 159 < 0x8000`,
a call with enough fuel for 80 columns returns and stores exactly 351 rows; for
`y < 27` and `ra < 13` the store number `13*y + ra` goes to bitmap row
`13*y + ra` and holds exactly 720 pixels, and for `c < 80`, `i < 9` the pixel at
column `9*c + i` is 0 when `i = 8`, and otherwise `fg` if bit `7 - i` of `pat`
is set and 0 if not, with `attr = vram[s_y + 2c]`, `code = vram[s_y + 2c + 1]`,
`pat` and `fg` as in the rendering rule. -/
theorem screen_update_frame (fuel : Nat) (u : Machine) (vram chargen : Nat → Nat)
    (hf : 80 ≤ fuel) (h : ∀ y, y < 27 → rowStart vram y + 159 < 0x8000) :
    ∃ t, screen_update fuel u vram chargen = some t ∧
      t.rows.length = 351 ∧
      ∀ y ra, y < 27 → ra < 13 →
        ∃ px, t.rows[13 * y + ra]? = some (13 * y + ra, px) ∧ px.length = 720 ∧
          ∀ c i, c < 80 → i < 9 →
            px[9 * c + i]? =
              some (specPixel chargen (rd8 vram (rowStart vram y + 2 * c + 1))
                (rd8 vram (rowStart vram y + 2 * c)) ra i) := by
  obtain ⟨t, ht, hr, _⟩ := screen_update_run fuel u vram chargen hf
    (fun y hy => by have := h y hy; omega)
  refine ⟨t, ht, ?_, ?_⟩
  · rw [hr, frameRows_length]
  · intro y ra hy hra
    refine ⟨rowPixels vram chargen ra 0 (rowStart vram y), ?_, rowPixels_length _ _ _ _ _, ?_⟩
    · rw [hr, frameRows_get vram chargen y ra hy hra]
    · intro c i hc hi
      rw [rowPixels_get vram chargen ra 0 (rowStart vram y) c i hc hi,
        cellPixels_get vram chargen ra (rowStart vram y + 2 * c) i hi]

theorem screen_update_frame_witness :
    (80 ≤ 80 ∧ ∀ y, y < 27 → rowStart vramAll80 y + 159 < 0x8000) ∧
    ∃ t, screen_update 80 zeroMachine vramAll80 chargenZero = some t ∧
      t.rows.length = 351 ∧
      ∀ y ra, y < 27 → ra < 13 →
        ∃ px, t.rows[13 * y + ra]? = some (13 * y + ra, px) ∧ px.length = 720 ∧
          ∀ c i, c < 80 → i < 9 →
            px[9 * c + i]? =
              some (specPixel chargenZero (rd8 vramAll80 (rowStart vramAll80 y + 2 * c + 1))
                (rd8 vramAll80 (rowStart vramAll80 y + 2 * c)) ra i) :=
  ⟨⟨by decide, by decide⟩,
    screen_update_frame 80 zeroMachine vramAll80 chargenZero (by decide) (by decide)⟩

end Att4425
